import Mathlib

/-!
Verification of the result-guard combinator layer against its specification.

The development shallowly embeds the source files src/error.ts, src/promise.ts,
src/types.ts and src/utils.ts. Thrown JavaScript values are modelled by `JSVal`,
exception objects by `ErrorObj` (whose `id` field stands for reference
identity), and every fallible computation by `Except JSVal`. Asynchronous
operations are modelled by their settled outcome; race winners and interleaving
choices that depend on real time are passed in as explicit parameters. Each
public entry point returns `Except JSVal` of a run record: an `Except.error`
would mean an exception escaped the public boundary.
-/

namespace ResultGuard

/-- An exception object. `message` is the error message; `id` models the
reference identity of the object, so that passing an error through unchanged
is expressed as returning an `ErrorObj` with the same `id`. Freshly
constructed errors in this model use id 0; identity only matters for the
pass-through claims. -/
structure ErrorObj where
  message : String
  id : Nat
deriving DecidableEq, Repr

/-- A JavaScript value that can be thrown or carried by a rejection. `vOther`
models any value that is neither null, undefined, a string nor an Error
instance: `json` is the result of JSON.stringify on it (`none` when stringify
itself throws, e.g. on circular structures) and `str` is its String(...)
conversion. -/
inductive JSVal where
  | vNull
  | vUndefined
  | vStr (s : String)
  | vErr (e : ErrorObj)
  | vOther (json : Option String) (str : String)
deriving DecidableEq, Repr

/-- JavaScript truthiness of an optional numeric option field: undefined and 0
are falsy, every other number is truthy. -/
def natTruthy : Option Nat → Bool
  | none => false
  | some n => n != 0

/-- src/error.ts formatErrorValue: null and undefined become literal text,
otherwise JSON.stringify is attempted with String(...) as the fallback when
stringify throws. -/
def formatErrorValue : JSVal → String
  | .vNull => "null"
  | .vUndefined => "undefined"
  | .vStr s => "\"" ++ s ++ "\""
  | .vErr _ => "{}"
  | .vOther json str =>
    match json with
    | some j => j
    | none => str

/-- src/error.ts toError: an Error instance passes through unchanged, a string
becomes the message of a fresh Error, anything else becomes a fresh Error with
a formatted message. -/
def toError : JSVal → ErrorObj
  | .vErr e => e
  | .vStr s => ⟨s, 0⟩
  | v => ⟨"Non-error value thrown: " ++ formatErrorValue v, 0⟩

/-- src/error.ts handleError: error instanceof Error ? error : toError(error). -/
def handleError (v : JSVal) : ErrorObj :=
  match v with
  | .vErr e => e
  | _ => toError v

/-- src/types.ts Result, modelled as the record shape the library constructs:
`data` and `error` are nullable fields (null modelled by `none`) plus the
`isError` discriminant. -/
structure ResultRec (α : Type) where
  data : Option α
  error : Option ErrorObj
  isError : Bool
deriving DecidableEq, Repr

/-- src/error.ts createSuccess. -/
def createSuccess (a : α) : ResultRec α :=
  { data := some a, error := none, isError := false }

/-- src/error.ts createFailure. -/
def createFailure (e : ErrorObj) : ResultRec α :=
  { data := none, error := some e, isError := true }

/-- Well-formedness of a Result record: the discriminant agrees with which of
the two payload fields is present (the data-model invariant of the spec). -/
def resultWF (r : ResultRec α) : Prop :=
  (r.isError = false ∧ r.error = none ∧ r.data.isSome = true) ∨
  (r.isError = true ∧ r.data = none ∧ r.error.isSome = true)

/-- Boolean isError test used where the source calls r.isError. -/
def isErrR (r : ResultRec α) : Bool := r.isError

/-- src/promise.ts safeResolve: Promise.resolve(value).catch(e => throw
handleError(e)). On a settled outcome this rewraps a rejection value as the
normalized Error before rethrowing it. -/
def safeResolve (p : Except JSVal α) : Except JSVal α :=
  match p with
  | .ok a => .ok a
  | .error v => .error (.vErr (handleError v))

/-- src/promise.ts handlePromise: await the promise, wrapping resolution in a
success and rejection in a failure of the normalized error. -/
def handlePromise (p : Except JSVal α) : ResultRec α :=
  match p with
  | .ok a => createSuccess a
  | .error v => createFailure (handleError v)

/-- The value returned by the zero-argument function handed to tryCatch: a
plain non-awaitable value, a native Promise (with its settled outcome), or a
thenable that is an awaitable but not an instance of Promise. The thenable
carries an identity and its would-be settled outcome. -/
inductive TCRet (α : Type) where
  | plain (a : α)
  | promiseRet (out : Except JSVal α)
  | thenable (oid : Nat) (out : Except JSVal α)
deriving Repr

/-- The value tryCatch hands back: a Result synchronously, or a promise of a
Result. On the synchronous path the success payload is the very value the
function returned, hence `ResultRec (TCRet α)`. -/
inductive TCOut (α : Type) where
  | sync (r : ResultRec (TCRet α))
  | async (r : ResultRec α)
deriving Repr

/-- src/index.ts tryCatch: invoke fn; a synchronous throw becomes a Failure of
the normalized error; a returned value that is an instance of Promise is
awaited through safeResolve and handlePromise; any other returned value
(including a non-Promise thenable) is wrapped immediately in a synchronous
Success. The outer Except is the public boundary: an `Except.error` would be
an exception escaping tryCatch. -/
def tryCatch (f : Except JSVal (TCRet α)) : Except JSVal (TCOut α) :=
  .ok (match f with
    | .error v => .sync (createFailure (handleError v))
    | .ok (.promiseRet p) => .async (handlePromise (safeResolve p))
    | .ok r => .sync (createSuccess r))

/-- tryCatch specialized to a function returning a plain value, with the
payload projected out of the `TCRet.plain` tag; the bridge to `tryCatch`
itself is proved in the pipeline theorem. -/
def tryCatchPlain (f : Except JSVal α) : ResultRec α :=
  match f with
  | .ok a => createSuccess a
  | .error v => createFailure (handleError v)

/-- Payload map on a Result record, used to state the bridge between
`tryCatchPlain` and the sync branch of `tryCatch`. -/
def resultMapPayload (g : α → β) (r : ResultRec α) : ResultRec β :=
  { data := r.data.map g, error := r.error, isError := r.isError }

/-- State of the host timer table together with the shared cancel hook that
src/utils.ts createTimeoutPromise installs. `timers` maps a timer id (its
index) to whether the timer is still pending; `protoCancel` models the
property `cancel` that the helper assigns onto `Promise.prototype` — a single
shared slot holding the id of the most recently created deadline timer, since
each assignment overwrites the previous one. -/
structure TimerState where
  timers : List Bool
  protoCancel : Option Nat
deriving DecidableEq, Repr

/-- clearTimeout on one timer id: idempotent and side-effect-free when the
timer already fired or was already cleared. -/
def clearTimeoutOp (s : TimerState) (id : Nat) : TimerState :=
  { s with timers := s.timers.set id false }

/-- The synchronous part of src/utils.ts createTimeoutPromise: setTimeout
allocates a fresh pending timer, and the helper assigns onto the shared
Promise prototype a cancel closure over that timer id, overwriting whatever
cancel closure an earlier call had put there. Returns the new timer id as the
handle of the created timeout promise. -/
def createTimeoutPromise (s : TimerState) : TimerState × Nat :=
  ({ timers := s.timers ++ [true], protoCancel := some s.timers.length },
   s.timers.length)

/-- The finally callback of src/utils.ts raceWithTimeout:
`(timeoutPromise as any).cancel?.()`. The promise instance has no own cancel
property, so the lookup reaches the shared prototype slot and clears whichever
timer id is currently stored there. -/
def cancelHook (s : TimerState) : TimerState :=
  match s.protoCancel with
  | some id => clearTimeoutOp s id
  | none => s

/-- Two raceWithTimeout calls in flight at once, e.g. the two operations of
one concurrent batch with a timeout: both synchronous prefixes run
back-to-back (each creating its deadline timer and overwriting the shared
cancel slot) before either race settles, then each settled race runs its
finally callback. -/
def twoConcurrentRaces : TimerState :=
  let s1 := (createTimeoutPromise ⟨[], none⟩).1
  let s2 := (createTimeoutPromise s1).1
  cancelHook (cancelHook s2)

/-- Options of src/utils.ts withEvents that the model observes: the error
event name only selects which emitter event is raced, so it is represented by
the interrupt parameter below rather than stored; `cleanup` is the optional
user hook with its outcome when invoked. -/
structure EvOptions where
  timeout : Option Nat := none
  cleanup : Option (Except JSVal Unit) := none

/-- The operation given to withEvents: it either throws synchronously when
invoked or returns a promise with a settled outcome. -/
inductive EvOperation (α : Type) where
  | throwsSync (v : JSVal)
  | settles (out : Except JSVal α)

/-- A race contender that can preempt the operation inside withEvents: the
configured error event firing with a value, or the deadline elapsing. -/
inductive EvInterrupt where
  | errorEvent (v : JSVal)
  | deadline
deriving DecidableEq, Repr

/-- Observable outcome of one withEvents call. -/
structure EvRun (α : Type) where
  result : ResultRec α
  timersCreated : Nat
  cleanupCalls : Nat

/-- src/utils.ts withEvents: tryCatch around racing the operation against the
error-event promise and, when the timeout option is truthy, a deadline timer
with message `Operation timed out`. A synchronous throw of operation() happens
before the timeout block runs, so no timer is created on that path; the
deadline can only preempt when a timer was actually created. The finally-based
cleanup runs exactly once under the settled flag, removing listeners and
invoking the user cleanup hook whose own exception is swallowed (the run
record only counts the invocation; the result is built solely from the race
outcome). -/
def withEvents (op : EvOperation α) (opts : EvOptions) (intr : Option EvInterrupt) :
    Except JSVal (EvRun α) :=
  .ok (
    match op with
    | .throwsSync v =>
      { result := handlePromise (safeResolve (.error v)),
        timersCreated := 0,
        cleanupCalls := if opts.cleanup.isSome then 1 else 0 }
    | .settles out =>
      let hasTimer := natTruthy opts.timeout
      let eff : Option EvInterrupt :=
        match intr with
        | some .deadline => if hasTimer then some .deadline else none
        | x => x
      let raceOut : Except JSVal α :=
        match eff with
        | some (.errorEvent v) => .error v
        | some .deadline =>
          .error (.vErr ⟨"Operation timed out after " ++
            toString (opts.timeout.getD 0) ++ "ms", 0⟩)
        | none => out
      { result := handlePromise (safeResolve raceOut),
        timersCreated := if hasTimer then 1 else 0,
        cleanupCalls := if opts.cleanup.isSome then 1 else 0 })

/-- A pull-based asynchronous sequence handed to withIterator: the outcomes of
successive next() calls (a throw, a yielded value, or done; an exhausted list
is read as done), whether the sequence exposes a return() close hook, and
whether that hook throws when invoked. -/
structure SeqModel (α : Type) where
  steps : List (Except JSVal (Option α))
  hasReturn : Bool
  returnThrows : Bool

/-- Options of src/utils.ts withIterator: the onItem predicate is modelled by
its outcome on each item (it may throw or return a boolean). -/
structure IterOpts (α : Type) where
  timeout : Option Nat := none
  maxItems : Option Nat := none
  onItem : Option (α → Except JSVal Bool) := none

/-- Outcome of invoking the close hook itself: it may throw. -/
def iterReturnOutcome (sq : SeqModel α) : Except JSVal Unit :=
  if sq.returnThrows then .error (.vErr ⟨"Failed to close iterator", 0⟩) else .ok ()

/-- src/utils.ts withIterator cleanup: `try { await iterator.return?.() } catch
{}` — the hook is invoked when present and whatever it throws is swallowed, so
the only observable effect is the invocation count. -/
def runCleanup (sq : SeqModel α) (cnt : Nat) : Nat :=
  if sq.hasReturn then
    match iterReturnOutcome sq with
    | .ok _ => cnt + 1
    | .error _ => cnt + 1
  else cnt

/-- The drain loop of src/utils.ts withIterator: call next(); on a throw,
invoke the close hook (that is the only close-hook call made inside the loop)
and propagate the error; on done, stop; otherwise consult onItem — a throw
propagates, false stops without appending — then append the item and stop if
the truthy maxItems cap is reached. Returns the loop outcome together with how
many close-hook invocations happened inside the loop. -/
def iterLoop (sq : SeqModel α) (onItem : Option (α → Except JSVal Bool))
    (maxItems : Option Nat) :
    List (Except JSVal (Option α)) → List α → Except JSVal (List α) × Nat
  | [], values => (.ok values, 0)
  | step :: rest, values =>
    match step with
    | .error v => (.error v, runCleanup sq 0)
    | .ok none => (.ok values, 0)
    | .ok (some a) =>
      match onItem with
      | some p =>
        match p a with
        | .error v => (.error v, 0)
        | .ok false => (.ok values, 0)
        | .ok true =>
          if natTruthy maxItems && decide (maxItems.getD 0 ≤ values.length + 1) then
            (.ok (values ++ [a]), 0)
          else iterLoop sq onItem maxItems rest (values ++ [a])
      | none =>
        if natTruthy maxItems && decide (maxItems.getD 0 ≤ values.length + 1) then
          (.ok (values ++ [a]), 0)
        else iterLoop sq onItem maxItems rest (values ++ [a])

/-- Characterization, independent of the loop's cleanup accounting, of the
drains that terminate because next() threw: it mirrors the loop's control flow
(onItem false, an onItem throw, done, or the maxItems cap all stop the drain
before another next() call) with the second argument tracking how many items
have been collected so far. -/
def drainHitsNextThrow (onItem : Option (α → Except JSVal Bool))
    (maxItems : Option Nat) :
    List (Except JSVal (Option α)) → Nat → Bool
  | [], _ => false
  | step :: rest, n =>
    match step with
    | .error _ => true
    | .ok none => false
    | .ok (some a) =>
      match onItem with
      | some p =>
        match p a with
        | .error _ => false
        | .ok false => false
        | .ok true =>
          if natTruthy maxItems && decide (maxItems.getD 0 ≤ n + 1) then false
          else drainHitsNextThrow onItem maxItems rest (n + 1)
      | none =>
        if natTruthy maxItems && decide (maxItems.getD 0 ≤ n + 1) then false
        else drainHitsNextThrow onItem maxItems rest (n + 1)

/-- Observable outcome of one withIterator call: the public Result, how many
times the sequence's close hook was invoked, and how many deadline timers were
created. -/
structure IterRun (α : Type) where
  result : ResultRec (List α)
  returnCalls : Nat
  timersCreated : Nat

/-- src/utils.ts withIterator: tryCatch around the drain; when the timeout
option is truthy the drain is raced against a deadline timer with message
`Iterator timed out` (the timeoutWins parameter tells which side settles
first; it is irrelevant when no timer exists), and the finally block invokes
the cleanup once more on top of any invocation the loop already made. Events
after the call settles (the preempted drain continuing in the background) are
outside the model. -/
def withIterator (sq : SeqModel α) (opts : IterOpts α) (timeoutWins : Bool) :
    Except JSVal (IterRun α) :=
  .ok (
    let hasTimer := natTruthy opts.timeout
    let raceOut : Except JSVal (List α) × Nat :=
      if hasTimer && timeoutWins then
        (.error (.vErr ⟨"Iterator timed out after " ++
          toString (opts.timeout.getD 0) ++ "ms", 0⟩), 0)
      else iterLoop sq opts.onItem opts.maxItems sq.steps []
    { result := handlePromise (safeResolve raceOut.1),
      returnCalls := runCleanup sq raceOut.2,
      timersCreated := if hasTimer then 1 else 0 })

/-- The setup function given to src/utils.ts withCallbacks, characterized by
whether it throws when invoked and whether it returns a cleanup closure. The
handler calls it arranges for are the event list processed by the run. -/
structure CBSetup where
  throws : Option JSVal := none
  providesCleanup : Bool := false

/-- An event observed after setup returned: a call to the wrapped resolve
handler, a call to the wrapped reject handler, or the deadline timer firing. -/
inductive CBEvent (α : Type) where
  | callResolve (a : α)
  | callReject (e : ErrorObj)
  | timerFire

/-- Mutable state of one withCallbacks invocation: the single settlement slot
of the inner promise, the number of times the user-supplied cleanup closure
has been invoked, and whether clearTimeout has run on the deadline timer. -/
structure CBState (α : Type) where
  settlement : Option (Except ErrorObj α)
  userCleanupCalls : Nat
  timerCleared : Bool

/-- One event step of src/utils.ts withCallbacks. Each wrapped handler call
first invokes the current cleanup closure — after setup returned that closure
is the user cleanup, additionally folded with clearTimeout when a timeout was
configured — and then calls the promise's resolve or reject, which only has an
effect on the first settlement. The deadline firing (only possible while the
timer exists and is uncleared) invokes the cleanup closure and rejects with
the timeout error. -/
def cbStep (hasTimer : Bool) (providesCleanup : Bool) (tmsg : ErrorObj) :
    CBState α → CBEvent α → CBState α
  | st, .callResolve a =>
    { settlement := match st.settlement with
        | none => some (.ok a)
        | s => s,
      userCleanupCalls := st.userCleanupCalls + (if providesCleanup then 1 else 0),
      timerCleared := st.timerCleared || hasTimer }
  | st, .callReject e =>
    { settlement := match st.settlement with
        | none => some (.error e)
        | s => s,
      userCleanupCalls := st.userCleanupCalls + (if providesCleanup then 1 else 0),
      timerCleared := st.timerCleared || hasTimer }
  | st, .timerFire =>
    if hasTimer && !st.timerCleared then
      { settlement := match st.settlement with
          | none => some (.error tmsg)
          | s => s,
        userCleanupCalls := st.userCleanupCalls + (if providesCleanup then 1 else 0),
        timerCleared := true }
    else st

/-- Observable outcome of one withCallbacks call: the public Result (none
while the promise is still pending because no settling event happened), the
number of user cleanup invocations, and the number of deadline timers set. -/
structure CBRun (α : Type) where
  result : Option (ResultRec α)
  userCleanupCalls : Nat
  timersCreated : Nat

/-- src/utils.ts withCallbacks: tryCatch around a promise whose executor
invokes setup with the wrapped handlers. If setup throws, the executor's throw
rejects the promise (the cleanup closure is still the initial no-op and the
timeout block is never reached, so no timer is set); otherwise the cleanup
closure becomes what setup returned, a deadline timer is set when the timeout
option is truthy, and the events are processed in order. A rejection reaches
tryCatch through the promise, so the Failure error is the normalized (here:
identical) Error. -/
def withCallbacks (setup : CBSetup) (timeout : Option Nat)
    (events : List (CBEvent α)) : Except JSVal (CBRun α) :=
  .ok (
    match setup.throws with
    | some v =>
      { result := some (handlePromise (safeResolve (.error v))),
        userCleanupCalls := 0,
        timersCreated := 0 }
    | none =>
      let hasTimer := natTruthy timeout
      let tmsg : ErrorObj :=
        ⟨"Operation timed out after " ++ toString (timeout.getD 0) ++ "ms", 0⟩
      let final := events.foldl (cbStep hasTimer setup.providesCleanup tmsg)
        ⟨none, 0, false⟩
      { result := final.settlement.map (fun s =>
          match s with
          | .ok a => createSuccess a
          | .error e => handlePromise (safeResolve (.error (.vErr e)))),
        userCleanupCalls := final.userCleanupCalls,
        timersCreated := if hasTimer then 1 else 0 })

/-- The first settlement an event list produces when no deadline timer exists:
the wrapped handlers settle the promise at the first resolve or reject call. -/
def firstSettle : List (CBEvent α) → Option (Except ErrorObj α)
  | [] => none
  | .callResolve a :: _ => some (.ok a)
  | .callReject e :: _ => some (.error e)
  | .timerFire :: rest => firstSettle rest

/-- Number of wrapped-handler calls in an event list. -/
def handlerCalls : List (CBEvent α) → Nat
  | [] => 0
  | .callResolve _ :: rest => handlerCalls rest + 1
  | .callReject _ :: rest => handlerCalls rest + 1
  | .timerFire :: rest => handlerCalls rest

/-- An element of the operations array given to src/utils.ts concurrent: a
value that is not invocable (invoking it throws the host TypeError carried
here), a function returning a plain value, or a function returning a promise
with a settled outcome. -/
inductive COp (α : Type) where
  | notAFunction (e : ErrorObj)
  | returnsPlain (a : α)
  | returnsPromise (out : Except JSVal α)

/-- src/utils.ts concurrent executeOperation on one element: tryCatch around
invoking the element and awaiting the result, raced against a deadline with
message `Operation timed out` when the timeout option is truthy. `timesOut`
says whether the deadline settles first; it is irrelevant when no timer
exists. Awaiting a plain value yields the value. -/
def execOp (timeout : Option Nat) (op : COp α) (timesOut : Bool) : ResultRec α :=
  if natTruthy timeout && timesOut then
    handlePromise (safeResolve (.error (.vErr
      ⟨"Operation timed out after " ++ toString (timeout.getD 0) ++ "ms", 0⟩)))
  else
    match op with
    | .notAFunction e => handlePromise (safeResolve (.error (.vErr e)))
    | .returnsPlain a => handlePromise (safeResolve (.ok a))
    | .returnsPromise out => handlePromise (safeResolve out)

/-- Map a function of the absolute operation index over a list starting at a
given base index; used to form the per-operation Results in launch order. -/
def mapIdxFrom (f : Nat → COp α → ResultRec α) (base : Nat) :
    List (COp α) → List (ResultRec α)
  | [] => []
  | op :: rest => f base op :: mapIdxFrom f (base + 1) rest

/-- The chunked loop of src/utils.ts concurrent in bounded mode with chunk
size k + 1: launch one chunk, and if stopOnError is set and the chunk contains
a failure, return only the first failing Result of that chunk (discarding
everything accumulated) — later chunks never start. The second component
counts how many operations were launched. `Sum.inr` is the short-circuit
return that propagates to the caller unchanged. -/
def chunkLoop (exec : Nat → COp α → ResultRec α) (stop : Bool) (k : Nat)
    (ops : List (COp α)) (base : Nat) :
    (Sum (List (ResultRec α)) (ResultRec α)) × Nat :=
  match ops with
  | [] => (Sum.inl [], 0)
  | op :: rest =>
    let chunk := op :: List.take k rest
    let cr := mapIdxFrom exec base chunk
    if stop && cr.any isErrR then
      (match cr.find? isErrR with
       | some r => (Sum.inr r, chunk.length)
       | none => (Sum.inl [], chunk.length))
    else
      match chunkLoop exec stop k (List.drop k rest) (base + chunk.length) with
      | (Sum.inl rs, launched) => (Sum.inl (cr ++ rs), chunk.length + launched)
      | (Sum.inr r, launched) => (Sum.inr r, chunk.length + launched)
termination_by ops.length
decreasing_by simp [List.length_drop]; omega

/-- Observable outcome of one concurrent call: the returned Results, how many
operations were launched, and how many deadline timers were created (one per
launched operation when the timeout option is truthy). -/
structure CRun (α : Type) where
  results : List (ResultRec α)
  launched : Nat
  timersCreated : Nat

/-- src/utils.ts concurrent. `maxConcurrent` none models the unset default
Infinity. Unbounded mode (no limit, or no more operations than the limit)
launches everything and, under stopOnError, keeps only the first failing
Result in list order. Bounded mode runs consecutive chunks through chunkLoop.
A limit of 0 with a nonempty operations list makes the chunk loop advance by
zero forever, so the returned promise never settles: that run is `none`. The
per-operation timesOut choices are indexed by absolute position. -/
def concurrent (ops : List (COp α)) (maxConcurrent : Option Nat)
    (timeout : Option Nat) (stopOnError : Bool) (tos : Nat → Bool) :
    Except JSVal (Option (CRun α)) :=
  .ok (
    let exec := fun i op => execOp timeout op (tos i)
    let timersFor := fun launched => if natTruthy timeout then launched else 0
    let unbounded : CRun α :=
      let rs := mapIdxFrom exec 0 ops
      if stopOnError && rs.any isErrR then
        { results := match rs.find? isErrR with
            | some r => [r]
            | none => [],
          launched := ops.length,
          timersCreated := timersFor ops.length }
      else
        { results := rs, launched := ops.length, timersCreated := timersFor ops.length }
    match maxConcurrent with
    | none => some unbounded
    | some k =>
      if ops.length ≤ k then some unbounded
      else if k = 0 then none
      else
        match chunkLoop exec stopOnError (k - 1) ops 0 with
        | (Sum.inl rs, launched) =>
          some { results := rs, launched := launched, timersCreated := timersFor launched }
        | (Sum.inr r, launched) =>
          some { results := [r], launched := launched, timersCreated := timersFor launched })

/-- Modelled from the spec: the pipeline threading loop of `pipe`. The
implementation of `pipe` is exported by the package index and exercised by the
tests, but its source file is not among the repository sources, so this
definition follows the spec: thread the value through the steps in order; a
step returning a Failure stops the pipeline, which returns that Failure
unchanged; otherwise the unwrapped success payload feeds the next step; empty
steps give a Success of the initial value. A step's Success always carries a
payload by the data-model invariant, so the missing-payload branch returning
the Result unchanged is unreachable for spec-conformant steps. A step may also
throw, which the surrounding ResultWrapper (below) catches. -/
def pipeGo (v : β) : List (β → Except JSVal (ResultRec β)) → Except JSVal (ResultRec β)
  | [] => .ok (createSuccess v)
  | s :: rest =>
    match s v with
    | .error e => .error e
    | .ok r =>
      if r.isError then .ok r
      else
        match r.data with
        | some d => pipeGo d rest
        | none => .ok r

/-- Modelled from the spec: public `pipe`, the pipeline combinator built on
the ResultWrapper like the other combinators, so a throwing step becomes a
Failure of the normalized error instead of escaping. -/
def pipe (initial : β) (steps : List (β → Except JSVal (ResultRec β))) :
    Except JSVal (ResultRec β) :=
  .ok (match pipeGo initial steps with
    | .ok r => r
    | .error v => createFailure (handleError v))

/-- C1: a zero-argument function returning a plain value v without throwing
yields the synchronous Success record with data v, error null and isError
false; a function throwing v yields a Failure whose error equals the
normalization of v, and normalization returns an exception instance itself
unchanged (same identity). -/
theorem tryCatch_sync_spec {α : Type} :
    (∀ a : α, tryCatch (.ok (.plain a)) =
      .ok (.sync { data := some (.plain a), error := none, isError := false })) ∧
    (∀ v : JSVal, (tryCatch (.error v) : Except JSVal (TCOut α)) =
      .ok (.sync (createFailure (handleError v)))) ∧
    (∀ v : JSVal, handleError v = toError v) ∧
    (∀ e : ErrorObj, toError (.vErr e) = e) := by
  refine ⟨fun a => rfl, fun v => rfl, fun v => ?_, fun e => rfl⟩
  cases v <;> rfl

/-- C2 counterexample: a function returning an awaitable that is not a native
Promise instance (a thenable) is not awaited by tryCatch; the thenable object
itself comes back synchronously as the success payload, contradicting the
claim that every awaitable is awaited and never returned as the payload. -/
theorem tryCatch_thenable_not_awaited :
    tryCatch (.ok (.thenable 7 (.ok (1 : Int)))) =
      .ok (.sync (createSuccess (.thenable 7 (.ok (1 : Int))))) := rfl

/-- C2 amended: only a returned native Promise instance is awaited — its
resolution becomes a Success of the resolved value and its rejection a
Failure of the normalized rejection — while any other awaitable (a thenable
that is not instanceof Promise) is returned unawaited as the payload of a
synchronous Success. -/
theorem tryCatch_promise_only_spec {α : Type} :
    (∀ a : α, tryCatch (.ok (.promiseRet (.ok a))) =
      .ok (.async (createSuccess a))) ∧
    (∀ v : JSVal, (tryCatch (.ok (.promiseRet (.error v))) : Except JSVal (TCOut α)) =
      .ok (.async (createFailure (handleError v)))) ∧
    (∀ (oid : Nat) (out : Except JSVal α), tryCatch (.ok (.thenable oid out)) =
      .ok (.sync (createSuccess (.thenable oid out)))) := by
  refine ⟨fun a => rfl, fun v => ?_, fun oid out => rfl⟩
  cases v <;> rfl

/-- C4: the claim is the stated contract of raceWithTimeout, but the code
stores the cancel closure on the shared Promise prototype, so with two calls
in flight both finally callbacks clear the second call's timer and the first
call's deadline timer is never cancelled: after both races settle, timer 0 is
still pending. A single call with no overlap does cancel its own timer. -/
theorem prototype_cancel_leaks_first_timer :
    twoConcurrentRaces.timers = [true, false] ∧
    (cancelHook (createTimeoutPromise ⟨[], none⟩).1).timers = [false] :=
  ⟨rfl, rfl⟩

/-- The maxItems cap guard is JavaScript-truthy, so a cap of 0 never stops the
drain, exactly like an absent cap. -/
theorem iterLoop_maxItems_zero {α : Type} (sq : SeqModel α)
    (oi : Option (α → Except JSVal Bool)) :
    ∀ (steps : List (Except JSVal (Option α))) (acc : List α),
      iterLoop sq oi (some 0) steps acc = iterLoop sq oi none steps acc := by
  intro steps
  induction steps with
  | nil => intro acc; rfl
  | cons step rest ih =>
    intro acc
    cases step with
    | error v => rfl
    | ok o =>
      cases o with
      | none => rfl
      | some a =>
        cases oi with
        | none => simpa [iterLoop, natTruthy] using ih (acc ++ [a])
        | some p =>
          cases hp : p a with
          | error v => simp [iterLoop, hp]
          | ok b =>
            cases b with
            | false => simp [iterLoop, hp]
            | true => simpa [iterLoop, hp, natTruthy] using ih (acc ++ [a])

/-- C10: a zero option value is treated as unset. Passing timeout 0 to
withIterator, withEvents, withCallbacks or concurrent creates no deadline
timer and behaves exactly like omitting the option (in particular a deadline
can never preempt the work), and passing maxItems 0 to withIterator imposes
no item cap: the drain behaves exactly as with no cap. -/
theorem zero_options_treated_as_unset {α : Type} :
    (∀ (sq : SeqModel α) (mi : Option Nat) (oi : Option (α → Except JSVal Bool))
       (tw : Bool),
       withIterator sq ⟨some 0, mi, oi⟩ tw = withIterator sq ⟨none, mi, oi⟩ tw ∧
       ∀ run, withIterator sq ⟨some 0, mi, oi⟩ tw = .ok run → run.timersCreated = 0) ∧
    (∀ (sq : SeqModel α) (t : Option Nat) (oi : Option (α → Except JSVal Bool))
       (tw : Bool),
       withIterator sq ⟨t, some 0, oi⟩ tw = withIterator sq ⟨t, none, oi⟩ tw) ∧
    (∀ (op : EvOperation α) (cl : Option (Except JSVal Unit))
       (intr : Option EvInterrupt),
       withEvents op ⟨some 0, cl⟩ intr = withEvents op ⟨none, cl⟩ intr ∧
       ∀ run, withEvents op ⟨some 0, cl⟩ intr = .ok run → run.timersCreated = 0) ∧
    (∀ (stp : CBSetup) (es : List (CBEvent α)),
       withCallbacks stp (some 0) es = withCallbacks stp none es ∧
       ∀ run, (withCallbacks stp (some 0) es : Except JSVal (CBRun α)) = .ok run →
         run.timersCreated = 0) ∧
    (∀ (ops : List (COp α)) (mc : Option Nat) (stop : Bool) (tos : Nat → Bool),
       concurrent ops mc (some 0) stop tos = concurrent ops mc none stop tos ∧
       ∀ run, concurrent ops mc (some 0) stop tos = .ok (some run) →
         run.timersCreated = 0) := by
  refine ⟨fun sq mi oi tw => ⟨rfl, ?_⟩, fun sq t oi tw => ?_,
    fun op cl intr => ⟨?_, ?_⟩, fun stp es => ⟨?_, ?_⟩,
    fun ops mc stop tos => ⟨rfl, ?_⟩⟩
  · intro run h
    cases h
    rfl
  · simp only [withIterator, iterLoop_maxItems_zero]
  · cases op <;> rfl
  · intro run h
    cases op <;> (cases h; rfl)
  · cases h : stp.throws <;> rfl
  · intro run h
    cases hs : stp.throws <;> simp [withCallbacks, hs] at h <;> cases h <;> rfl
  · intro run h
    unfold concurrent at h
    rw [Except.ok.injEq] at h
    dsimp only at h
    split at h
    · rw [Option.some.injEq] at h
      subst h
      split <;> rfl
    · split at h
      · rw [Option.some.injEq] at h
        subst h
        split <;> rfl
      · split at h
        · exact absurd h (by simp)
        · split at h
          · rw [Option.some.injEq] at h
            subst h
            rfl
          · rw [Option.some.injEq] at h
            subst h
            rfl

/-- Once the inner promise of withCallbacks is settled, further events never
change the settlement, while every handler call still invokes the cleanup
closure (counted when the user supplied one). Stated for runs without a
deadline timer. -/
theorem cb_foldl_settled {α : Type} (pc : Bool) (tmsg : ErrorObj)
    (x : Except ErrorObj α) :
    ∀ (es : List (CBEvent α)) (c : Nat),
      es.foldl (cbStep false pc tmsg) ⟨some x, c, false⟩ =
        ⟨some x, c + (if pc then handlerCalls es else 0), false⟩ := by
  intro es
  induction es with
  | nil =>
    intro c
    cases pc <;> simp [handlerCalls]
  | cons e rest ih =>
    intro c
    cases e with
    | callResolve a =>
      have hstep : cbStep false pc tmsg (⟨some x, c, false⟩ : CBState α)
          (CBEvent.callResolve a) = ⟨some x, c + (if pc then 1 else 0), false⟩ := rfl
      rw [List.foldl_cons, hstep, ih]
      cases pc <;> simp [handlerCalls] <;> omega
    | callReject e0 =>
      have hstep : cbStep false pc tmsg (⟨some x, c, false⟩ : CBState α)
          (CBEvent.callReject e0) = ⟨some x, c + (if pc then 1 else 0), false⟩ := rfl
      rw [List.foldl_cons, hstep, ih]
      cases pc <;> simp [handlerCalls] <;> omega
    | timerFire =>
      have hstep : cbStep false pc tmsg (⟨some x, c, false⟩ : CBState α)
          CBEvent.timerFire = ⟨some x, c, false⟩ := rfl
      rw [List.foldl_cons, hstep, ih]
      simp [handlerCalls]

/-- From a pending state without a deadline timer, the event fold settles at
the first handler call and counts one cleanup invocation per handler call when
the user supplied a cleanup closure. -/
theorem cb_foldl_pending {α : Type} (pc : Bool) (tmsg : ErrorObj) :
    ∀ (es : List (CBEvent α)) (c : Nat),
      es.foldl (cbStep false pc tmsg) ⟨none, c, false⟩ =
        ⟨firstSettle es, c + (if pc then handlerCalls es else 0), false⟩ := by
  intro es
  induction es with
  | nil =>
    intro c
    cases pc <;> simp [handlerCalls, firstSettle]
  | cons e rest ih =>
    intro c
    cases e with
    | callResolve a =>
      have hstep : cbStep false pc tmsg (⟨none, c, false⟩ : CBState α)
          (CBEvent.callResolve a) =
          ⟨some (.ok a), c + (if pc then 1 else 0), false⟩ := rfl
      rw [List.foldl_cons, hstep, cb_foldl_settled]
      cases pc <;> simp [handlerCalls, firstSettle] <;> omega
    | callReject e0 =>
      have hstep : cbStep false pc tmsg (⟨none, c, false⟩ : CBState α)
          (CBEvent.callReject e0) =
          ⟨some (.error e0), c + (if pc then 1 else 0), false⟩ := rfl
      rw [List.foldl_cons, hstep, cb_foldl_settled]
      cases pc <;> simp [handlerCalls, firstSettle] <;> omega
    | timerFire =>
      have hstep : cbStep false pc tmsg (⟨none, c, false⟩ : CBState α)
          CBEvent.timerFire = ⟨none, c, false⟩ := rfl
      rw [List.foldl_cons, hstep, ih]
      simp [handlerCalls, firstSettle]

/-- C8 counterexample: with a setup that supplies a cleanup closure, calling
the wrapped resolve handler twice settles the Result to the first value but
invokes the cleanup closure twice — the second call is not the no-op the
claim requires. -/
theorem withCallbacks_repeat_call_reinvokes_cleanup :
    withCallbacks ⟨none, true⟩ none
      [CBEvent.callResolve (1 : Int), CBEvent.callResolve 2] =
      .ok { result := some (createSuccess 1), userCleanupCalls := 2,
            timersCreated := 0 } := rfl

/-- C8 amended: the first call to either wrapped handler invokes the current
cleanup closure and settles the Result; every subsequent call to either
handler leaves the returned Result unchanged (single settlement), but each
handler call — first or repeated — invokes the cleanup closure again, since no
settled flag guards it. Stated for a non-throwing setup and no deadline
timer: the Result is the first settlement among the handler calls and the
user cleanup runs once per handler call. -/
theorem withCallbacks_settlement_spec {α : Type} (pc : Bool)
    (es : List (CBEvent α)) :
    withCallbacks ⟨none, pc⟩ none es =
      .ok { result := (firstSettle es).map (fun s =>
              match s with
              | .ok a => createSuccess a
              | .error e => createFailure e),
            userCleanupCalls := if pc then handlerCalls es else 0,
            timersCreated := 0 } := by
  unfold withCallbacks
  dsimp only
  have hnt : natTruthy none = false := rfl
  rw [hnt, cb_foldl_pending]
  rw [Except.ok.injEq, CBRun.mk.injEq]
  dsimp only
  refine ⟨?_, by omega, rfl⟩
  cases firstSettle es with
  | none => rfl
  | some s => cases s <;> rfl

/-- The cleanup wrapper swallows whatever the close hook throws, so its only
observable effect is one invocation when the hook exists, for either value of
returnThrows. -/
theorem runCleanup_eq {α : Type} (sq : SeqModel α) (c : Nat) :
    runCleanup sq c = if sq.hasReturn then c + 1 else c := by
  unfold runCleanup
  cases h : iterReturnOutcome sq <;> rfl

/-- The drain loop only consults the sequence through the step outcomes and
the presence of the close hook, so replacing the close hook's own outcome
changes nothing about the loop. -/
theorem iterLoop_returnThrows_irrel {α : Type} (st : List (Except JSVal (Option α)))
    (hr b b' : Bool) (oi : Option (α → Except JSVal Bool)) (mi : Option Nat) :
    ∀ (steps : List (Except JSVal (Option α))) (acc : List α),
      iterLoop ⟨st, hr, b⟩ oi mi steps acc = iterLoop ⟨st, hr, b'⟩ oi mi steps acc := by
  intro steps
  induction steps with
  | nil => intro acc; rfl
  | cons step rest ih =>
    intro acc
    cases step with
    | error v => simp only [iterLoop, runCleanup_eq]
    | ok o =>
      cases o with
      | none => rfl
      | some a =>
        cases oi with
        | none =>
          simp only [iterLoop]
          by_cases hcap : (natTruthy mi && decide (mi.getD 0 ≤ acc.length + 1)) = true
          · rw [if_pos hcap, if_pos hcap]
          · rw [if_neg hcap, if_neg hcap]
            exact ih (acc ++ [a])
        | some p =>
          cases hp : p a with
          | error v => simp only [iterLoop, hp]
          | ok bb =>
            cases bb with
            | false => simp only [iterLoop, hp]
            | true =>
              simp only [iterLoop, hp]
              by_cases hcap : (natTruthy mi && decide (mi.getD 0 ≤ acc.length + 1)) = true
              · rw [if_pos hcap, if_pos hcap]
              · rw [if_neg hcap, if_neg hcap]
                exact ih (acc ++ [a])

/-- Inside the drain loop the close hook is invoked exactly when the drain
terminates because next() threw. -/
theorem iterLoop_cleanup_count {α : Type} (sq : SeqModel α)
    (h : sq.hasReturn = true) (oi : Option (α → Except JSVal Bool))
    (mi : Option Nat) :
    ∀ (steps : List (Except JSVal (Option α))) (acc : List α),
      (iterLoop sq oi mi steps acc).2 =
        if drainHitsNextThrow oi mi steps acc.length then 1 else 0 := by
  intro steps
  induction steps with
  | nil => intro acc; rfl
  | cons step rest ih =>
    intro acc
    cases step with
    | error v =>
      simp only [iterLoop, drainHitsNextThrow, runCleanup_eq, h, if_true]
    | ok o =>
      cases o with
      | none => rfl
      | some a =>
        cases oi with
        | none =>
          simp only [iterLoop, drainHitsNextThrow]
          by_cases hcap : (natTruthy mi && decide (mi.getD 0 ≤ acc.length + 1)) = true
          · simp [hcap]
          · simp only [hcap, Bool.false_eq_true, if_false]
            simpa using ih (acc ++ [a])
        | some p =>
          cases hp : p a with
          | error v => simp only [iterLoop, drainHitsNextThrow, hp]; rfl
          | ok bb =>
            cases bb with
            | false => simp only [iterLoop, drainHitsNextThrow, hp]; rfl
            | true =>
              simp only [iterLoop, drainHitsNextThrow, hp]
              by_cases hcap : (natTruthy mi && decide (mi.getD 0 ≤ acc.length + 1)) = true
              · simp [hcap]
              · simp only [hcap, Bool.false_eq_true, if_false]
                simpa using ih (acc ++ [a])

/-- C5 counterexample: on a sequence whose first next() call throws, the close
hook is invoked twice in one withIterator call — once at the throw site inside
the loop and once more by the finally block — not exactly once as claimed. -/
theorem withIterator_double_close_on_next_throw :
    withIterator (α := Nat) ⟨[.error (.vStr "boom")], true, false⟩
      ⟨none, none, none⟩ false =
      .ok { result := createFailure ⟨"boom", 0⟩, returnCalls := 2,
            timersCreated := 0 } := rfl

/-- C5 amended: when the sequence has a close hook, one withIterator call
invokes it exactly once on normal completion, early stop and timeout, but
exactly twice when the drain ends because next() threw and no deadline
preempted it (once at the throw site, once more in the finally block); and an
exception thrown by the close hook itself never surfaces: the whole run is
unchanged if the close hook throws. -/
theorem withIterator_close_hook_spec {α : Type} (sq : SeqModel α)
    (opts : IterOpts α) (tw : Bool) (h : sq.hasReturn = true) :
    ∃ run, withIterator sq opts tw = .ok run ∧
      run.returnCalls =
        (if (!(natTruthy opts.timeout && tw)) &&
            drainHitsNextThrow opts.onItem opts.maxItems sq.steps 0 then 2 else 1) ∧
      (∀ b, withIterator ⟨sq.steps, sq.hasReturn, b⟩ opts tw = .ok run) := by
  refine ⟨_, rfl, ?_, ?_⟩
  · dsimp only
    rw [runCleanup_eq, h]
    rw [if_pos rfl]
    cases htw : natTruthy opts.timeout && tw with
    | true => simp [htw]
    | false =>
      rw [if_neg (by simp [htw])]
      rw [iterLoop_cleanup_count sq h opts.onItem opts.maxItems sq.steps []]
      simp only [List.length_nil, htw, Bool.not_false, Bool.true_and]
      by_cases hd : drainHitsNextThrow opts.onItem opts.maxItems sq.steps 0 = true
      · simp [hd]
      · simp [hd]
  · intro b
    show Except.ok _ = Except.ok _
    rw [Except.ok.injEq]
    dsimp only
    rw [iterLoop_returnThrows_irrel sq.steps sq.hasReturn b sq.returnThrows
      opts.onItem opts.maxItems, runCleanup_eq, runCleanup_eq]
    try rfl

/-- C5 witness: the amended statement applied to a concrete one-item sequence
with a close hook that completes normally: the close hook runs exactly once. -/
theorem withIterator_close_hook_spec_witness :
    ∃ run, withIterator (α := Nat) ⟨[.ok (some 1), .ok none], true, false⟩
        ⟨none, none, none⟩ false = .ok run ∧
      run.returnCalls =
        (if (!(natTruthy none && false)) &&
            drainHitsNextThrow (α := Nat) none none [.ok (some 1), .ok none] 0
         then 2 else 1) ∧
      (∀ b, withIterator (α := Nat) ⟨[.ok (some 1), .ok none], true, b⟩
        ⟨none, none, none⟩ false = .ok run) :=
  withIterator_close_hook_spec ⟨[.ok (some 1), .ok none], true, false⟩
    ⟨none, none, none⟩ false rfl

/-- Every item the drain loop appends was first approved by the onItem
predicate: if the loop returns a list and every already-collected item was
approved, every item of the returned list was approved. -/
theorem iterLoop_collected_approved {α : Type} (sq : SeqModel α)
    (p : α → Except JSVal Bool) (mi : Option Nat) :
    ∀ (steps : List (Except JSVal (Option α))) (acc : List α)
      (vs : List α) (cnt : Nat),
      iterLoop sq (some p) mi steps acc = (.ok vs, cnt) →
      (∀ a ∈ acc, p a = .ok true) → ∀ a ∈ vs, p a = .ok true := by
  intro steps
  induction steps with
  | nil =>
    intro acc vs cnt hloop hacc
    simp only [iterLoop, Prod.mk.injEq, Except.ok.injEq] at hloop
    exact hloop.1 ▸ hacc
  | cons step rest ih =>
    intro acc vs cnt hloop hacc
    cases step with
    | error v =>
      simp only [iterLoop, Prod.mk.injEq] at hloop
      exact absurd hloop.1 (fun hcontra => Except.noConfusion hcontra)
    | ok o =>
      cases o with
      | none =>
        simp only [iterLoop, Prod.mk.injEq, Except.ok.injEq] at hloop
        exact hloop.1 ▸ hacc
      | some a =>
        have hacc' : ∀ x ∈ acc ++ [a], p x = .ok true → True := fun _ _ _ => trivial
        cases hp : p a with
        | error v =>
          simp only [iterLoop, hp, Prod.mk.injEq] at hloop
          exact absurd hloop.1 (fun hcontra => Except.noConfusion hcontra)
        | ok bb =>
          cases bb with
          | false =>
            simp only [iterLoop, hp, Prod.mk.injEq, Except.ok.injEq] at hloop
            exact hloop.1 ▸ hacc
          | true =>
            have happ : ∀ x ∈ acc ++ [a], p x = .ok true := by
              intro x hx
              rcases List.mem_append.mp hx with hx | hx
              · exact hacc x hx
              · rcases List.mem_singleton.mp hx with rfl
                exact hp
            by_cases hcap : (natTruthy mi && decide (mi.getD 0 ≤ acc.length + 1)) = true
            · simp only [iterLoop, hp, hcap, if_true, Prod.mk.injEq,
                Except.ok.injEq] at hloop
              exact hloop.1 ▸ happ
            · simp only [iterLoop, hp, hcap, Bool.false_eq_true, if_false] at hloop
              exact ih (acc ++ [a]) vs cnt hloop happ

/-- C6: when an onItem predicate is set and withIterator returns a Success
list, every collected item is one the predicate approved with true; an item
for which the predicate returned false stopped the iteration and was excluded
from the result. -/
theorem withIterator_onItem_false_excludes {α : Type} (sq : SeqModel α)
    (opts : IterOpts α) (tw : Bool) (p : α → Except JSVal Bool)
    (hp : opts.onItem = some p) (run : IterRun α)
    (hr : withIterator sq opts tw = .ok run) (vs : List α)
    (hs : run.result = createSuccess vs) :
    ∀ a ∈ vs, p a = .ok true := by
  unfold withIterator at hr
  rw [Except.ok.injEq] at hr
  subst hr
  dsimp only at hs
  by_cases htw : (natTruthy opts.timeout && tw) = true
  · exfalso
    rw [if_pos htw] at hs
    simp [handlePromise, safeResolve, createFailure, createSuccess] at hs
  · rw [if_neg htw, hp] at hs
    rcases hloop : iterLoop sq (some p) opts.maxItems sq.steps [] with ⟨out, cnt⟩
    rw [hloop] at hs
    cases out with
    | error v =>
      exfalso
      simp [handlePromise, safeResolve, createFailure, createSuccess] at hs
    | ok ws =>
      have hws : ws = vs := by
        simpa [handlePromise, safeResolve, createSuccess] using hs
      subst hws
      exact iterLoop_collected_approved sq p opts.maxItems sq.steps [] ws cnt hloop
        (by intro a ha; cases ha) 

/-- Concrete onItem predicate used to witness the collected-items theorem:
continue while the item is below 2. -/
def onItemLt2 : Nat → Except JSVal Bool := fun a => .ok (decide (a < 2))

/-- Concrete three-item sequence used to witness the collected-items
theorem. -/
def seqOneTwoThree : SeqModel Nat :=
  ⟨[.ok (some 1), .ok (some 2), .ok (some 3)], false, false⟩

/-- C6 witness: on the concrete sequence 1, 2, 3 with the predicate item < 2
the returned Success list is [1]; applying the theorem to its member 1 shows
the predicate approved it, with the false-returning item 2 excluded. -/
theorem withIterator_onItem_false_excludes_witness :
    onItemLt2 1 = .ok true :=
  withIterator_onItem_false_excludes seqOneTwoThree ⟨none, none, some onItemLt2⟩
    false onItemLt2 rfl
    { result := createSuccess [1], returnCalls := 0, timersCreated := 0 }
    rfl [1] rfl 1 (List.mem_singleton.mpr rfl)

/-- Threading through a successful prefix of steps continues from the
prefix's success payload. -/
theorem pipeGo_append {β : Type} :
    ∀ (l1 : List (β → Except JSVal (ResultRec β))) (b v : β),
      pipeGo b l1 = .ok (createSuccess v) →
      ∀ l2, pipeGo b (l1 ++ l2) = pipeGo v l2 := by
  intro l1
  induction l1 with
  | nil =>
    intro b v hpre l2
    simp only [pipeGo, Except.ok.injEq] at hpre
    have hbv : b = v := by
      have := congrArg ResultRec.data hpre
      simpa [createSuccess] using this
    subst hbv
    rfl
  | cons s l1 ih =>
    intro b v hpre l2
    rw [List.cons_append]
    simp only [pipeGo] at hpre ⊢
    cases hsb : s b with
    | error e => rw [hsb] at hpre; exact absurd hpre (fun hc => Except.noConfusion hc)
    | ok r =>
      rw [hsb] at hpre
      dsimp only at hpre ⊢
      by_cases hie : r.isError = true
      · rw [if_pos hie] at hpre
        rw [Except.ok.injEq] at hpre
        exfalso
        rw [hpre] at hie
        simp [createSuccess] at hie
      · rw [if_neg hie] at hpre ⊢
        cases hd : r.data with
        | none =>
          rw [hd] at hpre
          rw [Except.ok.injEq] at hpre
          exfalso
          rw [hpre] at hd
          simp [createSuccess] at hd
        | some d =>
          rw [hd] at hpre
          exact ih d v hpre l2

/-- C9: pipe threads the initial value through the steps in order, feeding
each step the previous success payload; empty steps yield a Success of the
initial value; the first step returning a Failure makes the whole pipeline
return that Failure unchanged with the later steps never consulted; the
bridge conjunct identifies tryCatchPlain with the sync branch of tryCatch on
plain-value functions; and the concrete example pipes 5 through doubling and
adding ten to a Success with data 20. -/
theorem pipe_spec :
    (∀ (β : Type) (b : β), pipe b [] = .ok (createSuccess b)) ∧
    (∀ (β : Type) (b v : β) (l1 : List (β → Except JSVal (ResultRec β)))
       (s : β → Except JSVal (ResultRec β))
       (l2 : List (β → Except JSVal (ResultRec β))) (r : ResultRec β),
       pipeGo b l1 = .ok (createSuccess v) → s v = .ok r → r.isError = true →
       pipe b (l1 ++ s :: l2) = .ok r) ∧
    (∀ f : Except JSVal Int, tryCatch (Except.map TCRet.plain f) =
       .ok (.sync (resultMapPayload TCRet.plain (tryCatchPlain f)))) ∧
    pipe (5 : Int) [fun x => .ok (tryCatchPlain (.ok (x * 2))),
                    fun x => .ok (tryCatchPlain (.ok (x + 10)))] =
      .ok (createSuccess 20) := by
  refine ⟨fun β b => rfl, ?_, ?_, rfl⟩
  · intro β b v l1 s l2 r hpre hsv hie
    unfold pipe
    rw [pipeGo_append l1 b v hpre (s :: l2)]
    simp only [pipeGo, hsv, hie, if_true]
  · intro f
    cases f <;> rfl

/-- C9 witness: the short-circuit conjunct applied concretely — a failing
middle step makes the three-step pipeline return that Failure unchanged, the
final step never influencing the outcome. -/
theorem pipe_spec_witness :
    pipe (5 : Int)
      ([fun x => .ok (tryCatchPlain (.ok (x * 2)))] ++
        (fun _ => .ok (tryCatchPlain (.error (.vStr "Operation failed")))) ::
        [fun x => .ok (tryCatchPlain (.ok (x + 100)))]) =
      .ok (createFailure ⟨"Operation failed", 0⟩) :=
  pipe_spec.2.1 Int 5 10 [fun x => .ok (tryCatchPlain (.ok (x * 2)))]
    (fun _ => .ok (tryCatchPlain (.error (.vStr "Operation failed"))))
    [fun x => .ok (tryCatchPlain (.ok (x + 100)))]
    (createFailure ⟨"Operation failed", 0⟩) rfl rfl rfl

/-- Awaiting any settled outcome through safeResolve and handlePromise yields
a well-formed Result. -/
theorem resultWF_handlePromise {α : Type} (p : Except JSVal α) :
    resultWF (handlePromise (safeResolve p)) := by
  cases p with
  | ok a => exact Or.inl ⟨rfl, rfl, rfl⟩
  | error v => exact Or.inr ⟨rfl, rfl, rfl⟩

/-- Every per-operation Result produced by executeOperation is well formed. -/
theorem execOp_wf {α : Type} (t : Option Nat) (op : COp α) (ts : Bool) :
    resultWF (execOp t op ts) := by
  unfold execOp
  split
  · exact resultWF_handlePromise _
  · cases op <;> exact resultWF_handlePromise _

/-- Mapping a pointwise well-formed executor over the operations keeps every
Result well formed. -/
theorem mapIdxFrom_wf {α : Type} (f : Nat → COp α → ResultRec α)
    (hf : ∀ i op, resultWF (f i op)) :
    ∀ (l : List (COp α)) (base : Nat), ∀ r ∈ mapIdxFrom f base l, resultWF r := by
  intro l
  induction l with
  | nil => intro base r hr; cases hr
  | cons op rest ih =>
    intro base r hr
    simp only [mapIdxFrom] at hr
    rcases List.mem_cons.mp hr with hr | hr
    · rw [hr]; exact hf base op
    · exact ih (base + 1) r hr

/-- Both possible returns of the chunk loop consist of well-formed Results. -/
theorem chunkLoop_wf {α : Type} (f : Nat → COp α → ResultRec α) (stop : Bool)
    (k : Nat) (hf : ∀ i op, resultWF (f i op)) :
    ∀ (n : Nat) (ops : List (COp α)) (base : Nat), ops.length ≤ n →
      (∀ rs L, chunkLoop f stop k ops base = (Sum.inl rs, L) →
        ∀ r ∈ rs, resultWF r) ∧
      (∀ r L, chunkLoop f stop k ops base = (Sum.inr r, L) → resultWF r) := by
  intro n
  induction n with
  | zero =>
    intro ops base hlen
    have hops : ops = [] := List.length_eq_zero.mp (Nat.le_zero.mp hlen)
    subst hops
    constructor
    · intro rs L h
      rw [chunkLoop] at h
      rw [Prod.mk.injEq] at h
      obtain ⟨h1, _⟩ := h
      rw [Sum.inl.injEq] at h1
      intro r hr
      rw [← h1] at hr
      cases hr
    · intro r L h
      rw [chunkLoop] at h
      rw [Prod.mk.injEq] at h
      exact absurd h.1 (fun hc => Sum.noConfusion hc)
  | succ m ih =>
    intro ops base hlen
    cases ops with
    | nil =>
      constructor
      · intro rs L h
        rw [chunkLoop] at h
        rw [Prod.mk.injEq] at h
        obtain ⟨h1, _⟩ := h
        rw [Sum.inl.injEq] at h1
        intro r hr
        rw [← h1] at hr
        cases hr
      · intro r L h
        rw [chunkLoop] at h
        rw [Prod.mk.injEq] at h
        exact absurd h.1 (fun hc => Sum.noConfusion hc)
    | cons op rest =>
      have hlen2 : (List.drop k rest).length ≤ m := by
        simp only [List.length_cons] at hlen
        simp only [List.length_drop]
        omega
      have hrec := ih (List.drop k rest) (base + (op :: List.take k rest).length) hlen2
      constructor
      · intro rs L h
        rw [chunkLoop] at h
        by_cases hguard :
            (stop && (mapIdxFrom f base (op :: List.take k rest)).any isErrR) = true
        · rw [if_pos hguard] at h
          rcases hfind : List.find? isErrR (mapIdxFrom f base (op :: List.take k rest))
            with _ | r0
          · rw [hfind] at h
            rw [Prod.mk.injEq] at h
            obtain ⟨h1, _⟩ := h
            rw [Sum.inl.injEq] at h1
            intro r hr
            rw [← h1] at hr
            cases hr
          · rw [hfind] at h
            rw [Prod.mk.injEq] at h
            exact absurd h.1 (fun hc => Sum.noConfusion hc)
        · rw [if_neg hguard] at h
          rcases hcl : chunkLoop f stop k (List.drop k rest)
              (base + (op :: List.take k rest).length) with ⟨rs' | r', L'⟩
          · rw [hcl] at h
            dsimp only at h
            rw [Prod.mk.injEq] at h
            obtain ⟨h1, _⟩ := h
            rw [Sum.inl.injEq] at h1
            intro r hr
            rw [← h1] at hr
            rcases List.mem_append.mp hr with hr | hr
            · exact mapIdxFrom_wf f hf _ _ r hr
            · exact hrec.1 rs' L' hcl r hr
          · rw [hcl] at h
            dsimp only at h
            rw [Prod.mk.injEq] at h
            exact absurd h.1 (fun hc => Sum.noConfusion hc)
      · intro r L h
        rw [chunkLoop] at h
        by_cases hguard :
            (stop && (mapIdxFrom f base (op :: List.take k rest)).any isErrR) = true
        · rw [if_pos hguard] at h
          rcases hfind : List.find? isErrR (mapIdxFrom f base (op :: List.take k rest))
            with _ | r0
          · rw [hfind] at h
            rw [Prod.mk.injEq] at h
            exact absurd h.1 (fun hc => Sum.noConfusion hc)
          · rw [hfind] at h
            rw [Prod.mk.injEq] at h
            obtain ⟨h1, _⟩ := h
            rw [Sum.inr.injEq] at h1
            rw [← h1]
            exact mapIdxFrom_wf f hf _ _ r0
              (List.mem_of_find?_eq_some hfind)
        · rw [if_neg hguard] at h
          rcases hcl : chunkLoop f stop k (List.drop k rest)
              (base + (op :: List.take k rest).length) with ⟨rs' | r', L'⟩
          · rw [hcl] at h
            dsimp only at h
            rw [Prod.mk.injEq] at h
            exact absurd h.1 (fun hc => Sum.noConfusion hc)
          · rw [hcl] at h
            dsimp only at h
            rw [Prod.mk.injEq] at h
            obtain ⟨h1, _⟩ := h
            rw [Sum.inr.injEq] at h1
            rw [← h1]
            exact hrec.2 r' L' hcl

/-- C3: no public entry point lets an exception cross the public boundary.
For every input — operations that throw or reject, setup functions that
throw, cleanup hooks and onItem predicates that throw, non-invocable batch
elements — tryCatch, withEvents, withIterator, withCallbacks, concurrent and
pipe return an ok value (never a raised exception), and every settled Result
they hand back is a well-formed Success or Failure record. -/
theorem public_entry_points_never_throw {α : Type} :
    (∀ f : Except JSVal (TCRet α), ∃ o, tryCatch f = .ok o) ∧
    (∀ (op : EvOperation α) (opts : EvOptions) (intr : Option EvInterrupt),
       ∃ run, withEvents op opts intr = .ok run ∧ resultWF run.result) ∧
    (∀ (sq : SeqModel α) (opts : IterOpts α) (tw : Bool),
       ∃ run, withIterator sq opts tw = .ok run ∧ resultWF run.result) ∧
    (∀ (stp : CBSetup) (t : Option Nat) (es : List (CBEvent α)),
       ∃ run, withCallbacks stp t es = .ok run ∧
         ∀ r, run.result = some r → resultWF r) ∧
    (∀ (ops : List (COp α)) (mc : Option Nat) (t : Option Nat) (stop : Bool)
       (tos : Nat → Bool),
       ∃ out, concurrent ops mc t stop tos = .ok out ∧
         ∀ run, out = some run → ∀ r ∈ run.results, resultWF r) ∧
    (∀ (b : α) (steps : List (α → Except JSVal (ResultRec α))),
       ∃ r, pipe b steps = .ok r) := by
  refine ⟨fun f => ⟨_, rfl⟩, fun op opts intr => ⟨_, rfl, ?_⟩,
    fun sq opts tw => ⟨_, rfl, ?_⟩, fun stp t es => ⟨_, rfl, ?_⟩,
    fun ops mc t stop tos => ⟨_, rfl, ?_⟩, fun b steps => ⟨_, rfl⟩⟩
  · cases op <;> exact resultWF_handlePromise _
  · exact resultWF_handlePromise _
  · intro r hsome
    cases hs : stp.throws with
    | some v =>
      rw [hs] at hsome
      dsimp only at hsome
      rw [Option.some.injEq] at hsome
      rw [← hsome]
      exact resultWF_handlePromise _
    | none =>
      rw [hs] at hsome
      dsimp only at hsome
      rcases hset : (es.foldl (cbStep (natTruthy t) stp.providesCleanup
          ⟨"Operation timed out after " ++ toString (t.getD 0) ++ "ms", 0⟩)
          ⟨none, 0, false⟩).settlement with _ | sres
      · rw [hset] at hsome
        exact absurd hsome (fun hc => Option.noConfusion hc)
      · rw [hset] at hsome
        rw [Option.map_some', Option.some.injEq] at hsome
        rw [← hsome]
        cases sres with
        | ok a => exact Or.inl ⟨rfl, rfl, rfl⟩
        | error e => exact resultWF_handlePromise _
  · intro run hrun r hr
    have hf : ∀ (i : Nat) (op : COp α), resultWF (execOp t op (tos i)) :=
      fun i op => execOp_wf t op (tos i)
    dsimp only at hrun
    cases mc with
    | none =>
      rw [Option.some.injEq] at hrun
      subst hrun
      revert hr
      split
      · rcases hfind : List.find? isErrR
            (mapIdxFrom (fun i op => execOp t op (tos i)) 0 ops) with _ | r0
        · intro hr; cases hr
        · intro hr
          rcases List.mem_singleton.mp hr with rfl
          exact mapIdxFrom_wf _ hf _ _ r (List.mem_of_find?_eq_some hfind)
      · intro hr
        exact mapIdxFrom_wf _ hf _ _ r hr
    | some k =>
      dsimp only at hrun
      by_cases hk : ops.length ≤ k
      · rw [if_pos hk, Option.some.injEq] at hrun
        subst hrun
        revert hr
        split
        · rcases hfind : List.find? isErrR
              (mapIdxFrom (fun i op => execOp t op (tos i)) 0 ops) with _ | r0
          · intro hr; cases hr
          · intro hr
            rcases List.mem_singleton.mp hr with rfl
            exact mapIdxFrom_wf _ hf _ _ r (List.mem_of_find?_eq_some hfind)
        · intro hr
          exact mapIdxFrom_wf _ hf _ _ r hr
      · rw [if_neg hk] at hrun
        by_cases hk0 : k = 0
        · rw [if_pos hk0] at hrun
          exact absurd hrun (fun hc => Option.noConfusion hc)
        · rw [if_neg hk0] at hrun
          rcases hcl : chunkLoop (fun i op => execOp t op (tos i)) stop
              (k - 1) ops 0 with ⟨rs' | r', L'⟩ <;> rw [hcl] at hrun
          all_goals dsimp only at hrun
          all_goals rw [Option.some.injEq] at hrun
          all_goals subst hrun
          · exact (chunkLoop_wf _ stop _ hf ops.length ops 0 (Nat.le_refl _)).1
              rs' L' hcl r hr
          · rcases List.mem_singleton.mp hr with rfl
            exact (chunkLoop_wf _ stop _ hf ops.length ops 0 (Nat.le_refl _)).2
              r L' hcl


/-- The per-operation Results list has one entry per operation. -/
theorem mapIdxFrom_length {α : Type} (f : Nat → COp α → ResultRec α) :
    ∀ (l : List (COp α)) (base : Nat), (mapIdxFrom f base l).length = l.length := by
  intro l
  induction l with
  | nil => intro base; rfl
  | cons op rest ih =>
    intro base
    simp [mapIdxFrom, ih]

/-- Splitting the operations splits the per-operation Results, with the right
part indexed from the split point. -/
theorem mapIdxFrom_append {α : Type} (f : Nat → COp α → ResultRec α) :
    ∀ (l1 l2 : List (COp α)) (base : Nat),
      mapIdxFrom f base (l1 ++ l2) =
        mapIdxFrom f base l1 ++ mapIdxFrom f (base + l1.length) l2 := by
  intro l1
  induction l1 with
  | nil =>
    intro l2 base
    simp [mapIdxFrom]
  | cons op rest ih =>
    intro l2 base
    show f base op :: mapIdxFrom f (base + 1) (rest ++ l2) =
      mapIdxFrom f base (op :: rest) ++ mapIdxFrom f (base + (op :: rest).length) l2
    rw [ih l2 (base + 1)]
    show _ = (f base op :: mapIdxFrom f (base + 1) rest) ++
      mapIdxFrom f (base + (op :: rest).length) l2
    rw [List.cons_append]
    have harith : base + 1 + rest.length = base + (op :: rest).length := by
      simp only [List.length_cons]
      omega
    rw [harith]

/-- In stop-on-error mode, as soon as some launched operation fails, the chunk
loop returns the first failing Result in index order; the launched count stays
within the chunk (of size k + 1) containing that first failure, so later
chunks never start, and the failing index itself was launched. -/
theorem chunkLoop_stop_first_failure {α : Type} (f : Nat → COp α → ResultRec α)
    (k : Nat) :
    ∀ (n : Nat) (ops : List (COp α)) (base : Nat), ops.length ≤ n →
      (mapIdxFrom f base ops).any isErrR = true →
      ∃ r, (mapIdxFrom f base ops).find? isErrR = some r ∧
        ∃ L, chunkLoop f true k ops base = (Sum.inr r, L) ∧
          (mapIdxFrom f base ops).findIdx isErrR < L ∧
          L ≤ ((mapIdxFrom f base ops).findIdx isErrR / (k + 1) + 1) * (k + 1) := by
  intro n
  induction n with
  | zero =>
    intro ops base hlen hany
    have hops : ops = [] := List.length_eq_zero.mp (Nat.le_zero.mp hlen)
    subst hops
    simp [mapIdxFrom] at hany
  | succ m ih =>
    intro ops base hlen hany
    cases ops with
    | nil => simp [mapIdxFrom] at hany
    | cons op rest =>
      have hsplit : op :: rest = (op :: List.take k rest) ++ List.drop k rest := by
        rw [List.cons_append, List.take_append_drop]
      have hmap : mapIdxFrom f base (op :: rest) =
          mapIdxFrom f base (op :: List.take k rest) ++
          mapIdxFrom f (base + (op :: List.take k rest).length) (List.drop k rest) := by
        conv_lhs => rw [hsplit]
        exact mapIdxFrom_append f _ _ base
      rw [hmap] at hany ⊢
      have hClen : (mapIdxFrom f base (op :: List.take k rest)).length =
          (op :: List.take k rest).length := mapIdxFrom_length f _ base
      cases hC : (mapIdxFrom f base (op :: List.take k rest)).any isErrR with
      | true =>
        have hex := List.any_eq_true.mp hC
        obtain ⟨r, hfind⟩ := Option.isSome_iff_exists.mp (List.find?_isSome.mpr hex)
        refine ⟨r, ?_, (op :: List.take k rest).length, ?_, ?_, ?_⟩
        · rw [List.find?_append, hfind, Option.or_some]
        · rw [chunkLoop]
          rw [hC]
          simp only [Bool.and_self]
          rw [if_pos trivial]
          rw [hfind]
        · have hlt : (mapIdxFrom f base (op :: List.take k rest)).findIdx isErrR <
              (mapIdxFrom f base (op :: List.take k rest)).length :=
            List.findIdx_lt_length.mpr hex
          rw [List.findIdx_append, if_pos hlt]
          rw [hClen] at hlt
          exact hlt
        · have hlt : (mapIdxFrom f base (op :: List.take k rest)).findIdx isErrR <
              (mapIdxFrom f base (op :: List.take k rest)).length :=
            List.findIdx_lt_length.mpr hex
          rw [List.findIdx_append, if_pos hlt]
          have hchlen : (op :: List.take k rest).length ≤ k + 1 := by
            simp only [List.length_cons, List.length_take]
            omega
          have hidxlt : (mapIdxFrom f base (op :: List.take k rest)).findIdx isErrR <
              k + 1 := by
            rw [hClen] at hlt
            omega
          rw [Nat.div_eq_of_lt hidxlt]
          omega
      | false =>
        have hanyR : (mapIdxFrom f
            (base + (op :: List.take k rest).length) (List.drop k rest)).any isErrR =
            true := by
          rw [List.any_append, hC, Bool.false_or] at hany
          exact hany
        have hlenR : (List.drop k rest).length ≤ m := by
          simp only [List.length_cons] at hlen
          simp only [List.length_drop]
          omega
        have hfull : k < rest.length := by
          by_contra hcon
          have hnil : List.drop k rest = [] := List.drop_eq_nil_of_le (by omega)
          rw [hnil] at hanyR
          simp [mapIdxFrom] at hanyR
        have hchlen : (op :: List.take k rest).length = k + 1 := by
          simp only [List.length_cons, List.length_take]
          omega
        obtain ⟨r, hfindR, L', hclR, hidxR, hbndR⟩ :=
          ih (List.drop k rest) (base + (op :: List.take k rest).length) hlenR hanyR
        have hnoneC : (mapIdxFrom f base (op :: List.take k rest)).find? isErrR =
            none :=
          List.find?_eq_none.mpr (List.any_eq_false.mp hC)
        have hnotlt : ¬ ((mapIdxFrom f base (op :: List.take k rest)).findIdx isErrR <
            (mapIdxFrom f base (op :: List.take k rest)).length) := by
          intro hcon
          have hex := List.findIdx_lt_length.mp hcon
          have := List.any_eq_true.mpr hex
          rw [hC] at this
          exact Bool.noConfusion this
        refine ⟨r, ?_, (op :: List.take k rest).length + L', ?_, ?_, ?_⟩
        · rw [List.find?_append, hnoneC, Option.none_or]
          exact hfindR
        · rw [chunkLoop]
          rw [hC]
          rw [Bool.and_false, if_neg (by simp)]
          rw [hclR]
        · rw [List.findIdx_append, if_neg hnotlt]
          rw [hClen]
          omega
        · rw [List.findIdx_append, if_neg hnotlt]
          rw [hClen, hchlen]
          rw [hchlen] at hbndR
          rw [Nat.add_div_right _ (Nat.succ_pos k)]
          have hstep : (List.findIdx isErrR
              (mapIdxFrom f (base + (k + 1)) (List.drop k rest)) / (k + 1) + 1 + 1) *
                (k + 1) =
              (List.findIdx isErrR
              (mapIdxFrom f (base + (k + 1)) (List.drop k rest)) / (k + 1) + 1) *
                (k + 1) + (k + 1) :=
            Nat.succ_mul _ _
          rw [hstep]
          exact (Nat.add_le_add_left hbndR (k + 1)).trans
            (Nat.le_of_eq (Nat.add_comm _ _))

/-- C7: with stopOnError set, whenever some executed operation settles to a
Failure, concurrent returns exactly one element — the failing Result with the
smallest index in list order (the one find? locates) — not the first to
complete, since Results are placed by index; the smallest failing index is
among the launched operations, and in bounded mode the launched count never
extends past the chunk containing that first failure, so later chunks never
start. -/
theorem concurrent_stopOnError_first_failure {α : Type} (ops : List (COp α))
    (mc : Option Nat) (t : Option Nat) (tos : Nat → Bool)
    (hmc : ∀ j, mc = some j → 0 < j)
    (hfail : (mapIdxFrom (fun i op => execOp t op (tos i)) 0 ops).any isErrR = true) :
    ∃ r run,
      (mapIdxFrom (fun i op => execOp t op (tos i)) 0 ops).find? isErrR = some r ∧
      concurrent ops mc t true tos = .ok (some run) ∧
      run.results = [r] ∧
      (mapIdxFrom (fun i op => execOp t op (tos i)) 0 ops).findIdx isErrR <
        run.launched ∧
      (∀ k, mc = some k → k < ops.length →
        run.launched ≤
          ((mapIdxFrom (fun i op => execOp t op (tos i)) 0 ops).findIdx isErrR / k
            + 1) * k) := by
  have hex := List.any_eq_true.mp hfail
  have hidxlen : (mapIdxFrom (fun i op => execOp t op (tos i)) 0 ops).findIdx isErrR <
      ops.length := by
    have hlt := List.findIdx_lt_length.mpr hex
    rw [mapIdxFrom_length] at hlt
    exact hlt
  cases mc with
  | none =>
    obtain ⟨r, hfind⟩ := Option.isSome_iff_exists.mp (List.find?_isSome.mpr hex)
    refine ⟨r, ⟨[r], ops.length, if natTruthy t then ops.length else 0⟩, hfind, ?_,
      rfl, hidxlen, fun k hk => absurd hk (fun hc => Option.noConfusion hc)⟩
    unfold concurrent
    dsimp only
    rw [hfail]
    simp only [Bool.and_self, if_pos trivial]
    rw [hfind]
  | some k =>
    have hkpos : 0 < k := hmc k rfl
    by_cases hkle : ops.length ≤ k
    · obtain ⟨r, hfind⟩ := Option.isSome_iff_exists.mp (List.find?_isSome.mpr hex)
      refine ⟨r, ⟨[r], ops.length, if natTruthy t then ops.length else 0⟩, hfind, ?_,
        rfl, hidxlen, fun j hj hlt => by
          rw [Option.some.injEq] at hj
          subst hj
          exact absurd hlt (Nat.not_lt.mpr hkle)⟩
      unfold concurrent
      dsimp only
      rw [if_pos hkle]
      rw [hfail]
      simp only [Bool.and_self, if_pos trivial]
      rw [hfind]
    · have hk1 : k - 1 + 1 = k := Nat.succ_pred_eq_of_pos hkpos
      obtain ⟨r, hfind, L, hcl, hidx, hbnd⟩ :=
        chunkLoop_stop_first_failure (fun i op => execOp t op (tos i)) (k - 1)
          ops.length ops 0 (Nat.le_refl _) hfail
      rw [hk1] at hbnd
      refine ⟨r, ⟨[r], L, if natTruthy t then L else 0⟩, hfind, ?_, rfl, hidx,
        fun j hj hlt => ?_⟩
      · unfold concurrent
        dsimp only
        rw [if_neg hkle, if_neg (by omega)]
        rw [hcl]
      · rw [Option.some.injEq] at hj
        subst hj
        exact hbnd

/-- Concrete operations list used to witness the stop-on-error theorem: the
only failure sits at index 1. -/
def witnessOps : List (COp Int) :=
  [COp.returnsPromise (.ok 1),
   COp.returnsPromise (.error (.vErr ⟨"failed", 7⟩)),
   COp.returnsPromise (.ok 3)]

/-- C7 witness: the three witness operations under maxConcurrent 1 with
stopOnError return exactly the single failing Result at index 1; the failing
index was launched and the launched count stays within its chunk. -/
theorem concurrent_stopOnError_first_failure_witness :
    ∃ r run,
      (mapIdxFrom (fun i op => execOp none op false) 0 witnessOps).find? isErrR =
        some r ∧
      concurrent witnessOps (some 1) none true (fun _ => false) =
        .ok (some run) ∧
      run.results = [r] ∧
      (mapIdxFrom (fun i op => execOp none op false) 0 witnessOps).findIdx isErrR <
        run.launched ∧
      (∀ k, (some 1 : Option Nat) = some k → k < witnessOps.length →
        run.launched ≤
          ((mapIdxFrom (fun i op => execOp none op false) 0 witnessOps).findIdx
            isErrR / k + 1) * k) :=
  concurrent_stopOnError_first_failure witnessOps (some 1) none (fun _ => false)
    (fun j hj => by
      rw [Option.some.injEq] at hj
      omega)
    (by decide)

/-- C3 witness: the never-throws theorem applied to a concrete withCallbacks
call that resolves once, discharging the settled-Result hypothesis at the
concrete Success record. -/
theorem public_entry_points_never_throw_witness :
    resultWF (createSuccess (1 : Int)) := by
  obtain ⟨run, hok, hwf⟩ :=
    (@public_entry_points_never_throw Int).2.2.2.1 ⟨none, false⟩ none
      [CBEvent.callResolve 1]
  have hok2 : (Except.ok run : Except JSVal (CBRun Int)) =
      .ok { result := some (createSuccess 1), userCleanupCalls := 0,
            timersCreated := 0 } := by
    rw [← hok]
    rfl
  rw [Except.ok.injEq] at hok2
  subst hok2
  exact hwf (createSuccess 1) rfl

/-- C10 witness: the zero-as-unset theorem applied to the concrete three-item
sequence — a timeout of 0 gives the very same run as no timeout, and the
timers hypothesis is discharged at the concrete run record. -/
theorem zero_options_treated_as_unset_witness :
    withIterator seqOneTwoThree ⟨some 0, none, none⟩ false =
      withIterator seqOneTwoThree ⟨none, none, none⟩ false ∧
    ({ result := createSuccess [1, 2, 3], returnCalls := 0, timersCreated := 0 } :
      IterRun Nat).timersCreated = 0 := by
  obtain ⟨heq, htimers⟩ :=
    (@zero_options_treated_as_unset Nat).1 seqOneTwoThree none none false
  exact ⟨heq, htimers _ rfl⟩

end ResultGuard
